import Mathlib

/-!
Verification of the SourcePawn include-file parser (`src/parser/inc_to_json.py`).

The Python source is shallowly embedded over `List Char`.  Each regular
expression of the source is rendered as an executable character-list scanner
with the same matching semantics (Python `re` leftmost-match, greedy and
non-greedy quantifier behaviour is reproduced where the patterns exercise it).
The embedding keeps the source's names where Lean allows.
-/

set_option maxHeartbeats 1000000

/-- Character strings are modelled as lists of characters. -/
abbrev Str := List Char

/-- Python `\s` / `str.strip` whitespace set (ASCII inputs). -/
def isSpace (c : Char) : Bool :=
  c = ' ' || c = '\t' || c = '\n' || c = '\r' || c = '\x0b' || c = '\x0c'

/-- Python `\w` word characters (ASCII inputs): letters, digits, underscore. -/
def isWordChar (c : Char) : Bool :=
  c.isAlphanum || c = '_'

/-- Python `str.strip()`: drop leading and trailing whitespace. -/
def pstrip (s : Str) : Str :=
  ((s.dropWhile isSpace).reverse.dropWhile isSpace).reverse

/-- Python `str.split(sep)` for a one-character separator:
`"".split -> [""]`, separators produce empty pieces. -/
def splitOnChar (sep : Char) : Str → List Str
  | [] => [[]]
  | c :: r =>
    if c = sep then [] :: splitOnChar sep r
    else
      match splitOnChar sep r with
      | [] => [[c]]
      | x :: xs => (c :: x) :: xs

/-- Python `sep.join(pieces)`. -/
def joinWith (sep : Str) : List Str → Str
  | [] => []
  | [x] => x
  | x :: xs => x ++ sep ++ joinWith sep xs

/-- First occurrence of `pat` as a substring: returns the text before it and
the text after it (Python regex literal scanning for non-greedy `.*?pat`). -/
def splitFirstSub (pat : Str) : Str → Option (Str × Str)
  | [] => if pat = [] then some ([], []) else none
  | c :: rest =>
    if pat.isPrefixOf (c :: rest) then some ([], (c :: rest).drop pat.length)
    else
      match splitFirstSub pat rest with
      | some p => some (c :: p.1, p.2)
      | none => none

/-- First occurrence of character `t`: text before it and text after it. -/
def splitAtChar (t : Char) : Str → Option (Str × Str)
  | [] => none
  | c :: r =>
    if c = t then some ([], r)
    else
      match splitAtChar t r with
      | some p => some (c :: p.1, p.2)
      | none => none

/-- `pat` occurs as a substring of the text. -/
def containsSub (pat : Str) : Str → Bool
  | [] => pat.isPrefixOf ([] : Str)
  | c :: r => pat.isPrefixOf (c :: r) || containsSub pat r

/-- `content.replace('\r\n', '\n').replace('\r', '\n')` of the source:
normalize line endings. -/
def normNewlines : Str → Str
  | [] => []
  | '\r' :: '\n' :: r => '\n' :: normNewlines r
  | '\r' :: r => '\n' :: normNewlines r
  | c :: r => c :: normNewlines r

/-- `s.replace('\n', ' ')` of the source. -/
def replaceNl (s : Str) : Str :=
  s.map (fun c => if c = '\n' then ' ' else c)

/-! ## Data model (§3 of the spec, dictionaries of the source) -/

/-- One `@param` tag entry: `{'name': ..., 'description': ...}`. -/
structure ParamDoc where
  name : Str
  description : Str
deriving DecidableEq, Repr

/-- The `tags` dictionary built by `parse_comment_block`.  The source
initializes `param`, `error`, `note` and `return`; `deprecated`, `see`,
`author` are added by `setdefault` on first use — modelled as always-present
lists (empty when never used). `ret` stands for the Python key `"return"`. -/
structure TagSet where
  param : List ParamDoc
  error : List Str
  note : List Str
  ret : Str
  deprecated : List Str
  see : List Str
  author : List Str
deriving DecidableEq, Repr

/-- The initial tags dictionary `{'param': [], 'error': [], 'note': [], 'return': ''}`. -/
def initTags : TagSet := ⟨[], [], [], [], [], [], []⟩

/-- Result of `parse_comment_block`: `{"description": ..., "tags": ...}`. -/
structure ParsedComment where
  description : Str
  tags : TagSet
deriving DecidableEq, Repr

/-- A parameter record produced by `parse_params_string`. -/
structure Param where
  name : Str
  type : Str
  default : Option Str
  description : Str
deriving DecidableEq, Repr

/-- A nested method record built inside the methodmap branch. -/
structure MethodEntry where
  name : Str
  type : Str
  return_type : Str
  params : List Param
  full_declaration : Str
deriving DecidableEq, Repr

/-- A nested property record built inside the methodmap branch. -/
structure PropertyEntry where
  name : Str
  type : Str
deriving DecidableEq, Repr

/-- An output record of `parse_include_file` (one of the three dict shapes
appended to `api_entries`; the `"type"` key of the methodmap/typedef dicts is
the fixed discriminator folded into the constructor). -/
inductive ApiEntry where
  | func (name type source_file return_type comment : Str) (tags : TagSet)
      (params : List Param) (full_declaration : Str)
  | methodmap (name source_file : Str) (inherits : Option Str) (comment : Str)
      (tags : TagSet) (methods : List MethodEntry)
      (properties : List PropertyEntry) (full_declaration : Str)
  | typedef (name source_file return_type comment : Str) (tags : TagSet)
      (params : List Param) (full_declaration : Str)
deriving DecidableEq, Repr

/-! ## Tag Parser — `parse_comment_block` (lines 33–86) -/

/-- One line of the clean-up loop: strip, remove a leading
`/**`, a trailing `*/`, a leading `*`, strip again. -/
def cleanCommentLine (line : Str) : Str :=
  let l1 := pstrip line
  let l2 := if ("/**".data).isPrefixOf l1 then l1.drop 3 else l1
  let l3 := if ("*/".data).isSuffixOf l2 then l2.take (l2.length - 2) else l2
  let l4 := if l3.head? = some '*' then l3.drop 1 else l3
  pstrip l4

/-- `full_comment = "\n".join(clean_lines).strip()`. -/
def fullCommentOf (comment_lines : List Str) : Str :=
  pstrip (joinWith ['\n'] (comment_lines.map cleanCommentLine))

/-- `re.split(r'\n\s*@', full_comment, 1)`: split at the leftmost newline
whose first following non-whitespace character is `@`.  Returns the text
before the newline and the text after that `@`, or `none` (no split). -/
def splitAtTag : Str → Option (Str × Str)
  | [] => none
  | c :: rest =>
    if c = '\n' then
      match rest.dropWhile isSpace with
      | '@' :: tl => some ([], tl)
      | _ =>
        match splitAtTag rest with
        | some p => some (c :: p.1, p.2)
        | none => none
    else
      match splitAtTag rest with
      | some p => some (c :: p.1, p.2)
      | none => none

/-- The `$` of the tag regex (no MULTILINE): end of text, or just before a
final trailing newline. -/
def atDollar : Str → Bool
  | [] => true
  | ['\n'] => true
  | _ => false

/-- The `\n\s*@` lookahead alternative of the tag regex. -/
def atTagStart : Str → Bool
  | '\n' :: rest =>
    match rest.dropWhile isSpace with
    | '@' :: _ => true
    | _ => false
  | _ => false

/-- The non-greedy `(?P<content>.*?)(?=\n\s*@|$)` of the tag regex: take
characters up to the first position satisfying the lookahead; also returns
the remaining text from that position (where `finditer` resumes). -/
def takeContent : Str → Str × Str
  | [] => ([], [])
  | c :: t =>
    if atTagStart (c :: t) || atDollar (c :: t) then ([], c :: t)
    else
      let p := takeContent t
      (c :: p.1, p.2)

/-- Scan for the next `@(?P<tag>\w+)` token: tag name and the text after it. -/
def findTag : Str → Option (Str × Str)
  | [] => none
  | '@' :: rest =>
    let nm := rest.takeWhile isWordChar
    if nm = [] then findTag rest else some (nm, rest.drop nm.length)
  | _ :: rest => findTag rest

/-- `re.finditer(r"(@(?P<tag>\w+))\s*(?P<content>.*?)(?=\n\s*@|$)", tags_str,
re.DOTALL)`: the ordered list of (tag, raw content) matches.  Fuel-bounded;
every match consumes at least two characters so `s.length` fuel suffices. -/
def scanTagsAux : Nat → Str → List (Str × Str)
  | 0, _ => []
  | fuel + 1, s =>
    match findTag s with
    | none => []
    | some nr =>
      let p := takeContent (nr.2.dropWhile isSpace)
      (nr.1, p.1) :: scanTagsAux fuel p.2

def scanTags (s : Str) : List (Str × Str) := scanTagsAux s.length s

/-- `' '.join(line.strip() for line in content.strip().split('\n'))`. -/
def normContent (s : Str) : Str :=
  joinWith [' '] ((splitOnChar '\n' (pstrip s)).map pstrip)

/-- `re.match(r"(?P<name>\w+)\s*(?P<desc>.*)", content)` of the `param`
branch, with the source's `.strip()` on the description. -/
def paramTagMatch (content : Str) : Option ParamDoc :=
  let nm := content.takeWhile isWordChar
  if nm = [] then none
  else
    let r := (content.drop nm.length).dropWhile isSpace
    some ⟨nm, pstrip (r.takeWhile (fun c => ¬ c = '\n'))⟩

/-- The tag-dispatch of the `for match in tag_matches` loop. -/
def applyTag (t : TagSet) (nm content0 : Str) : TagSet :=
  let content := normContent content0
  if nm = "param".data then
    match paramTagMatch content with
    | some pd => { t with param := t.param ++ [pd] }
    | none => t
  else if nm = "return".data then { t with ret := content }
  else if nm = "error".data then { t with error := t.error ++ [content] }
  else if nm = "note".data then { t with note := t.note ++ [content] }
  else if nm = "deprecated".data then { t with deprecated := t.deprecated ++ [content] }
  else if nm = "see".data then { t with see := t.see ++ [content] }
  else if nm = "author".data then { t with author := t.author ++ [content] }
  else t

/-- Tags accumulated from a tag string. -/
def tagsOfStr (s : Str) : TagSet :=
  (scanTags s).foldl (fun t nc => applyTag t nc.1 nc.2) initTags

/-- `parse_comment_block(comment_lines)` (lines 33–86): clean the lines,
split description from tags, parse the tags. -/
def parse_comment_block (comment_lines : List Str) : ParsedComment :=
  match splitAtTag (fullCommentOf comment_lines) with
  | some p => ⟨pstrip p.1, tagsOfStr ('@' :: p.2)⟩
  | none => ⟨pstrip (fullCommentOf comment_lines), initTags⟩

/-! ## Parameter List Parser — `parse_params_string` (lines 89–119) -/

/-- The character class `[\w:\[\]]` of the parameter-piece regex. -/
def isParamTypeChar (c : Char) : Bool :=
  isWordChar c || c = ':' || c = '[' || c = ']'

/-- `comment_params.get(name, "")` where `comment_params` is the dict
comprehension over the comment's `param` tags (later entries overwrite). -/
def lookupDesc (ps : List ParamDoc) (nm : Str) : Str :=
  match (ps.filter (fun p => p.name == nm)).getLast? with
  | some p => p.description
  | none => []

/-- The piece regex after the optional `const` group:
`(?P<type>[\w:\[\]]+)\s+&?(?P<name>\w+)(?:\s*=\s*(?P<default>.*?))?`.
The trailing non-greedy `(?P<default>.*?)` matches the empty string whenever
the `=` is present, so the captured default is `""` (and `None` without `=`). -/
def paramTail (r : Str) : Option (Str × Str × Option Str) :=
  let ty := r.takeWhile isParamTypeChar
  if ty = [] then none
  else
    let r1 := r.drop ty.length
    if r1.takeWhile isSpace = [] then none
    else
      let r2 := r1.dropWhile isSpace
      let r3 := match r2 with
                | '&' :: t => t
                | _ => r2
      let nm := r3.takeWhile isWordChar
      if nm = [] then none
      else
        let r4 := (r3.drop nm.length).dropWhile isSpace
        let df : Option Str := match r4 with
                               | '=' :: _ => some []
                               | _ => none
        some (ty, nm, df)

/-- `re.match` of the full piece regex `(?:const\s+)?...`: try with the
`const` group, backtrack to without it (then `const...` is read as the type). -/
def paramMatchHere (piece : Str) : Option (Str × Str × Option Str) :=
  if ("const".data).isPrefixOf piece then
    let r := piece.drop 5
    if r.takeWhile isSpace = [] then paramTail piece
    else
      match paramTail (r.dropWhile isSpace) with
      | some x => some x
      | none => paramTail piece
  else paramTail piece

/-- One iteration of the `for param in params` loop: strip the piece, skip
it when empty, otherwise build the parameter record when the piece regex
matches (non-matching pieces are silently dropped). -/
def paramOfPiece (commentParams : List ParamDoc) (piece0 : Str) : Option Param :=
  if pstrip piece0 = [] then none
  else
    match paramMatchHere (pstrip piece0) with
    | some x => some ⟨x.2.1, x.1, x.2.2, lookupDesc commentParams x.2.1⟩
    | none => none

/-- `parse_params_string(params_str, parsed_comment)` (lines 89–119); the
second argument is `parsed_comment['tags']['param']`. -/
def parse_params_string (params_str : Str) (commentParams : List ParamDoc) : List Param :=
  if pstrip params_str = [] then []
  else (splitOnChar ',' params_str).filterMap (paramOfPiece commentParams)

/-! ## Declaration Classifier — the module-level regexes (lines 9–30) -/

/-- The character class `[\w:<>\[\]]` of `FUNC_REGEX`'s return type. -/
def isRetChar (c : Char) : Bool :=
  isWordChar c || c = ':' || c = '<' || c = '>' || c = '[' || c = ']'

/-- One match of `FUNC_REGEX`: the four named groups, the whole matched text
(`group(0)`), and the remaining text after the match. -/
structure FuncMatch where
  type : Str
  return_type : Str
  name : Str
  params : Str
  whole : Str
  rest : Str
deriving DecidableEq, Repr

/-- The keyword alternation `native|stock|forward|public` (first letters are
distinct, so at most one alternative matches literally). -/
def matchKeyword (s : Str) : Option (Str × Str) :=
  if ("native".data).isPrefixOf s then some ("native".data, s.drop 6)
  else if ("stock".data).isPrefixOf s then some ("stock".data, s.drop 5)
  else if ("forward".data).isPrefixOf s then some ("forward".data, s.drop 7)
  else if ("public".data).isPrefixOf s then some ("public".data, s.drop 6)
  else none

/-- The non-greedy `\((?P<params>.*?)\);` tail: the text up to the first
`);` and the text after it. -/
def splitAtCloseSemi : Str → Option (Str × Str)
  | [] => none
  | ')' :: ';' :: r => some ([], r)
  | c :: r =>
    match splitAtCloseSemi r with
    | some p => some (c :: p.1, p.2)
    | none => none

/-- The `\((?P<params>.*?)\);` tail of `TYPEDEF_REGEX`, which is compiled
without `re.DOTALL`: `.` does not match a newline, so the `);` must occur
before any newline or the (position-0-anchored) match fails. -/
def splitAtCloseSemiNoNl : Str → Option (Str × Str)
  | [] => none
  | ')' :: ';' :: r => some ([], r)
  | '\n' :: _ => none
  | c :: r =>
    match splitAtCloseSemiNoNl r with
    | some p => some (c :: p.1, p.2)
    | none => none

/-- `(?P<return_type>[\w:<>\[\]]+)\s+(?P<name>\w+)\s*\((?P<params>.*?)\);`. -/
def funcTail (r : Str) : Option ((Str × Str × Str) × Str) :=
  let rty := r.takeWhile isRetChar
  if rty = [] then none
  else
    let r1 := r.drop rty.length
    if r1.takeWhile isSpace = [] then none
    else
      let r2 := r1.dropWhile isSpace
      let nm := r2.takeWhile isWordChar
      if nm = [] then none
      else
        let r3 := (r2.drop nm.length).dropWhile isSpace
        match r3 with
        | '(' :: r4 =>
          match splitAtCloseSemi r4 with
          | some p => some ((rty, nm, p.1), p.2)
          | none => none
        | _ => none

/-- `FUNC_REGEX` tried at one position (the `^` anchor is checked by the
callers).  The optional `(?:New:\s*)?` group backtracks to unmatched when the
rest fails with it consumed. -/
def funcMatchHere (s : Str) : Option FuncMatch :=
  match matchKeyword s with
  | none => none
  | some kr =>
    if kr.2.takeWhile isSpace = [] then none
    else
      let r2 := kr.2.dropWhile isSpace
      let attempt :=
        if ("New:".data).isPrefixOf r2 then
          match funcTail ((r2.drop 4).dropWhile isSpace) with
          | some x => some x
          | none => funcTail r2
        else funcTail r2
      match attempt with
      | none => none
      | some x =>
        some ⟨kr.1, x.1.1, x.1.2.1, x.1.2.2, s.take (s.length - x.2.length), x.2⟩

/-- `FUNC_REGEX.search`: with `re.MULTILINE` the `^` anchor admits the start
of the text and every position following a newline. -/
def funcSearchAux : Str → Bool → Option FuncMatch
  | [], _ => none
  | c :: rest, atStart =>
    match (if atStart then funcMatchHere (c :: rest) else none) with
    | some m => some m
    | none => funcSearchAux rest (c == '\n')

def funcSearchM (s : Str) : Option FuncMatch := funcSearchAux s true

/-- `FUNC_REGEX.finditer`: all (non-overlapping) matches in order; the next
search resumes at each match's end.  Fuel-bounded by the text length. -/
def funcFinditerAux : Nat → Bool → Str → List FuncMatch
  | 0, _, _ => []
  | _ + 1, _, [] => []
  | fuel + 1, atStart, c :: rest =>
    match (if atStart then funcMatchHere (c :: rest) else none) with
    | some m => m :: funcFinditerAux fuel (m.whole.getLast? == some '\n') m.rest
    | none => funcFinditerAux fuel (c == '\n') rest

def funcFinditer (s : Str) : List FuncMatch := funcFinditerAux s.length true s

/-- One match of `METHODMAP_REGEX` (`^methodmap\s+(?P<name>\w+)
(?:\s*<\s*(?P<inherits>\w+))?`; no MULTILINE, so `.search` can only match at
position 0). `whole` is `group(0)`. -/
structure MmMatch where
  name : Str
  inherits : Option Str
  whole : Str
deriving DecidableEq, Repr

def methodmapMatchHere (s : Str) : Option MmMatch :=
  if ("methodmap".data).isPrefixOf s then
    let r := s.drop 9
    if r.takeWhile isSpace = [] then none
    else
      let r1 := r.dropWhile isSpace
      let nm := r1.takeWhile isWordChar
      if nm = [] then none
      else
        let r2 := r1.drop nm.length
        let ir : Option Str × Str :=
          match r2.dropWhile isSpace with
          | '<' :: r3 =>
            let r4 := r3.dropWhile isSpace
            let iw := r4.takeWhile isWordChar
            if iw = [] then (none, r2) else (some iw, r4.drop iw.length)
          | _ => (none, r2)
        some ⟨nm, ir.1, s.take (s.length - ir.2.length)⟩
  else none

/-- `re.search(r"methodmap\s+.+?\{(.+?)\n\};", code_text, re.DOTALL)` tried
at one position: after `methodmap\s+`, at least one character precedes the
first `{`, and the captured body runs (at least one character) up to the
first `\n};`. -/
def mapBodyHere (s : Str) : Option Str :=
  if ("methodmap".data).isPrefixOf s then
    let r := s.drop 9
    if r.takeWhile isSpace = [] then none
    else
      match r.dropWhile isSpace with
      | [] => none
      | _ :: r2 =>
        match splitAtChar '{' r2 with
        | none => none
        | some br =>
          match br.2 with
          | [] => none
          | c :: r4 =>
            match splitFirstSub ("\n\x7d;".data) r4 with
            | some p => some (c :: p.1)
            | none => none
  else none

/-- The unanchored `re.search` for the methodmap body: try every start
position, leftmost success wins. -/
def findMapBodyAux : Nat → Str → Option Str
  | 0, _ => none
  | fuel + 1, s =>
    match mapBodyHere s with
    | some b => some b
    | none =>
      match s with
      | [] => none
      | _ :: r => findMapBodyAux fuel r

def findMapBody (s : Str) : Option Str := findMapBodyAux s.length s

/-- `PROPERTY_REGEX.finditer(map_body)`: the pattern
`^\s*public\s+property\s+(?P<property_type>\w+)\s+(?P<name>\w+)` has `^`
without MULTILINE, so it can only ever match at position 0 of the body —
at most one property is found, and only when the body's first
non-whitespace text is the property declaration. -/
def propertyMatches (body : Str) : List PropertyEntry :=
  let r := body.dropWhile isSpace
  if ("public".data).isPrefixOf r then
    let r1 := r.drop 6
    if r1.takeWhile isSpace = [] then []
    else
      let r2 := r1.dropWhile isSpace
      if ("property".data).isPrefixOf r2 then
        let r3 := r2.drop 8
        if r3.takeWhile isSpace = [] then []
        else
          let r4 := r3.dropWhile isSpace
          let ty := r4.takeWhile isWordChar
          if ty = [] then []
          else
            let r5 := r4.drop ty.length
            if r5.takeWhile isSpace = [] then []
            else
              let r6 := r5.dropWhile isSpace
              let nm := r6.takeWhile isWordChar
              if nm = [] then [] else [⟨nm, ty⟩]
      else []
  else []

/-- `TYPEDEF_REGEX.search` (`^\s*typedef\s+(?P<name>\w+)\s*=\s*function\s+
(?P<return_type>[\w:]+)\s*\((?P<params>.*?)\);`; `^` without MULTILINE, so
only position 0).  Returns name, return type, params text and `group(0)`. -/
def typedefMatchHere (s : Str) : Option (Str × Str × Str × Str) :=
  let r := s.dropWhile isSpace
  if ("typedef".data).isPrefixOf r then
    let r1 := r.drop 7
    if r1.takeWhile isSpace = [] then none
    else
      let r2 := r1.dropWhile isSpace
      let nm := r2.takeWhile isWordChar
      if nm = [] then none
      else
        match (r2.drop nm.length).dropWhile isSpace with
        | '=' :: r4 =>
          let r5 := r4.dropWhile isSpace
          if ("function".data).isPrefixOf r5 then
            let r6 := r5.drop 8
            if r6.takeWhile isSpace = [] then none
            else
              let r7 := r6.dropWhile isSpace
              let rty := r7.takeWhile (fun c => isWordChar c || c = ':')
              if rty = [] then none
              else
                match (r7.drop rty.length).dropWhile isSpace with
                | '(' :: r9 =>
                  match splitAtCloseSemiNoNl r9 with
                  | some p => some (nm, rty, p.1, s.take (s.length - p.2.length))
                  | none => none
                | _ => none
          else none
        | _ => none
  else none

/-! ## File Scanner — `parse_include_file` (lines 122–230) -/

/-- The lookahead `(?=/\*\*|$)` ending a code chunk. -/
def takeCode : Str → Str × Str
  | [] => ([], [])
  | c :: t =>
    if ("/**".data).isPrefixOf (c :: t) || atDollar (c :: t) then ([], c :: t)
    else
      let p := takeCode t
      (c :: p.1, p.2)

/-- One match of `r"(?P<comment>/\*\*.+?\*/)\s*(?P<code>.*?)(?=/\*\*|$)"`
tried at one position: the comment block (delimiters included, at least one
character between them), the whitespace-skipped trailing code chunk, and the
remaining text from the match's end. -/
def blockHere (s : Str) : Option ((Str × Str) × Str) :=
  if ("/**".data).isPrefixOf s then
    match s.drop 3 with
    | [] => none
    | c :: r1 =>
      match splitFirstSub ("*/".data) r1 with
      | none => none
      | some p =>
        let comment := ("/**".data) ++ c :: p.1 ++ ("*/".data)
        let cr := takeCode (p.2.dropWhile isSpace)
        some ((comment, cr.1), cr.2)
  else none

/-- Leftmost match of the comment-and-code pattern. -/
def blockSearchAux : Nat → Str → Option ((Str × Str) × Str)
  | 0, _ => none
  | _ + 1, [] => none
  | fuel + 1, c :: r =>
    match blockHere (c :: r) with
    | some x => some x
    | none => blockSearchAux fuel r

/-- `re.finditer` of the comment-and-code pattern: the ordered list of
(comment, code) pairs. -/
def blocksAux : Nat → Str → List (Str × Str)
  | 0, _ => []
  | fuel + 1, s =>
    match blockSearchAux s.length s with
    | none => []
    | some bp => bp.1 :: blocksAux fuel bp.2

def fileBlocks (s : Str) : List (Str × Str) := blocksAux s.length s

/-- The text contains a `/** ... */` documentation comment block, i.e. the
regex `/\*\*.+?\*/` has a match: at some position a `/**` opener is followed
— with at least one character in between — by a `*/` closer (an occurrence
of `*/` starting at offset ≥ 4 from the opener). -/
def hasCommentBlock : Str → Bool
  | [] => false
  | c :: r =>
    (("/**".data).isPrefixOf (c :: r) && containsSub ("*/".data) ((c :: r).drop 4)) ||
    hasCommentBlock r

/-- The suffix of the text starting at the first occurrence of the comment
opener `/**` (the whole text is unchanged when it has no such occurrence
other than dropping it entirely — then the result is empty). -/
def dropToComment : Str → Str
  | [] => []
  | c :: r => if ("/**".data).isPrefixOf (c :: r) then c :: r else dropToComment r

/-- A nested `MethodEntry` of the methodmap branch (lines 181–190): built
from a `FUNC_REGEX` match on the body with no comment correlation —
`parse_params_string(m_data['params'], {"tags": {"param": []}})`. -/
def mkMethodEntry (m : FuncMatch) : MethodEntry :=
  ⟨m.name, m.type, m.return_type, parse_params_string m.params [],
   replaceNl (pstrip m.whole)⟩

/-- The methods list of the methodmap branch: `FUNC_REGEX.finditer(map_body)`
when the body match succeeded, empty otherwise. -/
def mapMethods : Option Str → List MethodEntry
  | some body => (funcFinditer body).map mkMethodEntry
  | none => []

/-- The properties list of the methodmap branch. -/
def mapProps : Option Str → List PropertyEntry
  | some body => propertyMatches body
  | none => []

/-- The `Function` entry dict built in the function branch (lines 155–166)
for one `FUNC_REGEX` match `m` owned by the comment `comment`: in particular
`full_declaration` is `func_match.group(0).strip().replace('\n', ' ')`. -/
def funcEntryOf (filename comment : Str) (m : FuncMatch) : ApiEntry :=
  .func m.name m.type filename m.return_type
    (parse_comment_block (splitOnChar '\n' comment)).description
    (parse_comment_block (splitOnChar '\n' comment)).tags
    (parse_params_string m.params
      (parse_comment_block (splitOnChar '\n' comment)).tags.param)
    (replaceNl (pstrip m.whole))

/-- The per-block classification of `parse_include_file` (lines 150–212):
functions first, then methodmaps, then typedefs, first match wins. -/
def classifyBlock (filename comment code : Str) : Option ApiEntry :=
  match funcSearchM code with
  | some m => some (funcEntryOf filename comment m)
  | none =>
    match methodmapMatchHere code with
    | some mm =>
      some (.methodmap mm.name filename mm.inherits
        (parse_comment_block (splitOnChar '\n' comment)).description
        (parse_comment_block (splitOnChar '\n' comment)).tags
        (mapMethods (findMapBody code)) (mapProps (findMapBody code))
        (pstrip mm.whole))
    | none =>
      match typedefMatchHere code with
      | some td =>
        some (.typedef td.1 filename td.2.1
          (parse_comment_block (splitOnChar '\n' comment)).description
          (parse_comment_block (splitOnChar '\n' comment)).tags
          (parse_params_string td.2.2.1
            (parse_comment_block (splitOnChar '\n' comment)).tags.param)
          (pstrip td.2.2.2))
      | none => none

/-- `parse_include_file(filepath, filename)` (lines 122–230) with the file's
text supplied directly: normalize line endings, find every comment-and-code
block, classify each, collect the entries in order. -/
def parse_include_file (filename content : Str) : List ApiEntry :=
  (fileBlocks (normNewlines content)).filterMap
    (fun cb => classifyBlock filename cb.1 cb.2)

/-! ## Collection Driver — `main` (lines 233–265)

The directory walk and file reads are external effects; they are modelled
by the existence flag of the include directory and the walk's list of
(file name, read outcome) pairs.  A read outcome `Except.error` stands for
an exception raised while processing that file (caught by the per-file
`try`/`except`). -/

/-- Observable outcome of `main`: the written output file's contents (none
when nothing is written) and the process exit code (`main` plain-returns in
both branches, so the interpreter exits 0 either way). -/
structure MainResult where
  output : Option (List ApiEntry)
  exitCode : Nat
deriving Repr

/-- `main()`: missing directory prints an error and returns before writing;
otherwise every `.inc` file is parsed, a per-file exception skips that file,
and the accumulated entries are written (`all_api_data.extend` only runs on a
non-empty result, which accumulates the same list). -/
def main_run (dirExists : Bool) (files : List (Str × Except Str Str)) : MainResult :=
  if dirExists then
    ⟨some (files.foldl (fun acc fr =>
      if (".inc".data).isSuffixOf fr.1 then
        match fr.2 with
        | .ok content =>
          let entries := parse_include_file fr.1 content
          if entries = [] then acc else acc ++ entries
        | .error _ => acc
      else acc) []), 0⟩
  else ⟨none, 0⟩

/-! ## Statement helpers -/

/-- The `full_declaration` field of any entry variant. -/
def ApiEntry.fullDecl : ApiEntry → Str
  | .func _ _ _ _ _ _ _ fd => fd
  | .methodmap _ _ _ _ _ _ _ fd => fd
  | .typedef _ _ _ _ _ _ fd => fd

/-- Whether an entry is a `Function` entry. -/
def ApiEntry.isFunc : ApiEntry → Bool
  | .func .. => true
  | _ => false

/-- The `inherits` field of a `Methodmap` entry. -/
def ApiEntry.inheritsOf : ApiEntry → Option (Option Str)
  | .methodmap _ _ inh _ _ _ _ _ => some inh
  | _ => none

/-- The `methods` list of a `Methodmap` entry. -/
def ApiEntry.methodsOf : ApiEntry → Option (List MethodEntry)
  | .methodmap _ _ _ _ _ ms _ _ => some ms
  | _ => none

/-- The `properties` list of a `Methodmap` entry. -/
def ApiEntry.propsOf : ApiEntry → Option (List PropertyEntry)
  | .methodmap _ _ _ _ _ _ ps _ => some ps
  | _ => none

/-- The suffixes of a text that start just after a newline. -/
def tailsAfterNl : Str → List Str
  | [] => []
  | c :: r => if c = '\n' then r :: tailsAfterNl r else tailsAfterNl r

/-- The positions where the MULTILINE `^` anchor holds: the whole text and
every suffix following a newline. -/
def lineStartTails (s : Str) : List Str := s :: tailsAfterNl s

/-! ## Concrete claim inputs -/

/-- The C1 round-trip input file. -/
def c1content : String :=
  "/** Does X.\n * @param a the value\n * @return true on success */\nnative bool DoX(int a);"

/-- A file with one comment block followed by two function declarations. -/
def c2content : String := "/** A */\nnative void F();\nnative void G();"

/-- The witness input for C2's amended theorem. -/
def c2winContent : String := "/** W */\nnative bool DoY(int b);"

/-- The `FUNC_REGEX` match of the C2 witness chunk. -/
def c2winMatch : FuncMatch :=
  ⟨"native".data, "bool".data, "DoY".data, "int b".data,
   "native bool DoY(int b);".data, []⟩

/-- The C10 witness input: an unclosed `/**` (so no comment block) followed
by a function declaration. -/
def c10winContent : String := "/** opened but never closed\nnative void F(int x);"

/-- The C3 input: a single-line methodmap declaration after a doc comment. -/
def c3content : String :=
  "/** Doc */\nmethodmap Foo < Bar \x7b public native void Go(); public property int Size \x7b ... \x7d \x7d;"

/-- The C6 input: a methodmap whose only method declaration is indented. -/
def c6content : String :=
  "/** M */\nmethodmap Foo < Bar \x7b\n\tpublic native void Go();\n\x7d;"

/-- The C9 witness: a methodmap whose body opens directly with a method. -/
def c9winContent : String := "/** M */\nmethodmap Foo < Bar \x7bnative int Go(int a);\n\x7d;"

def c9winMethod : MethodEntry :=
  ⟨"Go".data, "native".data, "int".data, [⟨"a".data, "int".data, none, []⟩],
   "native int Go(int a);".data⟩

def c9winEntry : ApiEntry :=
  ApiEntry.methodmap ("Foo".data) ("t.inc".data) (some ("Bar".data)) ("M".data) initTags
    [c9winMethod] [] ("methodmap Foo < Bar".data)

/-! ## Supporting lemmas -/

theorem paramOfPiece_desc_nil (piece0 : Str) (p : Param)
    (h : paramOfPiece [] piece0 = some p) : p.description = [] := by
  unfold paramOfPiece at h
  split at h
  · exact absurd h (by simp)
  · split at h
    · cases h; rfl
    · exact absurd h (by simp)

theorem parse_params_string_desc_nil (s : Str) (p : Param)
    (hp : p ∈ parse_params_string s []) : p.description = [] := by
  unfold parse_params_string at hp
  split at hp
  · simp at hp
  · obtain ⟨piece, -, h⟩ := List.mem_filterMap.mp hp
    exact paramOfPiece_desc_nil piece p h

theorem funcFinditerAux_nil (fuel : Nat) :
    ∀ (s : Str) (atStart : Bool),
      (∀ t ∈ tailsAfterNl s, funcMatchHere t = none) →
      (atStart = true → funcMatchHere s = none) →
      funcFinditerAux fuel atStart s = [] := by
  induction fuel with
  | zero => intro s aS _ _; rfl
  | succ n ih =>
    intro s aS h1 h2
    cases s with
    | nil => rfl
    | cons c rest =>
      have hM : (if aS then funcMatchHere (c :: rest) else none) = none := by
        cases aS
        · rfl
        · exact h2 rfl
      rw [funcFinditerAux, hM]
      apply ih
      · intro t ht
        apply h1
        by_cases hc : c = '\n'
        · exact (by simp [tailsAfterNl, hc, ht] : t ∈ tailsAfterNl (c :: rest))
        · simpa [tailsAfterNl, hc] using ht
      · intro hb
        have hc : c = '\n' := by simpa using hb
        exact h1 rest (by simp [tailsAfterNl, hc])

theorem dropWhile_append_singleton {p : Char → Bool} {c : Char} (hc : p c = false) :
    ∀ l : Str, (l ++ [c]).dropWhile p = l.dropWhile p ++ [c] := by
  intro l
  induction l with
  | nil => simp [List.dropWhile, hc]
  | cons x xs ih =>
    by_cases hx : p x
    · simpa [List.dropWhile_cons, hx] using ih
    · simp [List.dropWhile_cons, hx]

theorem pstrip_head {c : Char} (hc : isSpace c = false) (l : Str) :
    (pstrip (c :: l)).head? = some c := by
  unfold pstrip
  rw [List.dropWhile_cons_of_neg (by simp [hc]), List.reverse_cons,
    dropWhile_append_singleton hc, List.reverse_append]
  simp

theorem dropWhile_length_le (p : Char → Bool) (l : Str) :
    (l.dropWhile p).length ≤ l.length := by
  induction l with
  | nil => simp
  | cons c r ih =>
    rw [List.dropWhile_cons]
    split
    · exact Nat.le_succ_of_le ih
    · exact le_rfl

theorem splitFirstSub_of_not_contains (pat : Str) :
    ∀ t : Str, containsSub pat t = false → splitFirstSub pat t = none := by
  intro t
  induction t with
  | nil =>
    intro h
    rw [containsSub] at h
    rw [splitFirstSub, if_neg]
    intro hp
    subst hp
    simp [List.isPrefixOf] at h
  | cons c r ih =>
    intro h
    rw [containsSub, Bool.or_eq_false_iff] at h
    rw [splitFirstSub, if_neg (by simp [h.1]), ih h.2]

theorem splitFirstSub_rest_length (pat : Str) :
    ∀ (t : Str) (p : Str × Str), splitFirstSub pat t = some p → p.2.length ≤ t.length := by
  intro t
  induction t with
  | nil =>
    intro p hp
    rw [splitFirstSub] at hp
    split at hp
    · cases hp; exact le_rfl
    · exact absurd hp (by simp)
  | cons c r ih =>
    intro p hp
    rw [splitFirstSub] at hp
    split at hp
    · cases hp
      simp only [List.length_drop]
      omega
    · cases hq : splitFirstSub pat r with
      | none => rw [hq] at hp; exact absurd hp (by simp)
      | some q =>
        rw [hq] at hp
        cases hp
        exact Nat.le_succ_of_le (ih q hq)

theorem takeCode_rest_length : ∀ s : Str, (takeCode s).2.length ≤ s.length := by
  intro s
  induction s with
  | nil => exact le_rfl
  | cons c t ih =>
    rw [takeCode]
    split
    · exact le_rfl
    · exact Nat.le_succ_of_le ih

theorem blockHere_rest_lt (s : Str) (x : (Str × Str) × Str)
    (h : blockHere s = some x) : x.2.length < s.length := by
  unfold blockHere at h
  split at h
  case isTrue hp =>
    split at h
    · exact absurd h (by simp)
    next c r1 hd =>
      split at h
      · exact absurd h (by simp)
      next p hsp =>
        cases h
        show (takeCode (p.2.dropWhile isSpace)).2.length < s.length
        have h1 : (takeCode (p.2.dropWhile isSpace)).2.length ≤
            (p.2.dropWhile isSpace).length := takeCode_rest_length _
        have h2 : (p.2.dropWhile isSpace).length ≤ p.2.length :=
          dropWhile_length_le _ _
        have h3 : p.2.length ≤ r1.length := splitFirstSub_rest_length _ r1 p hsp
        have h4 : (s.drop 3).length = s.length - 3 := List.length_drop _ _
        rw [hd] at h4
        simp only [List.length_cons] at h4
        omega
  case isFalse => exact absurd h (by simp)

theorem blockSearchAux_rest_lt (fuel : Nat) :
    ∀ (s : Str) (x : (Str × Str) × Str),
      blockSearchAux fuel s = some x → x.2.length < s.length := by
  induction fuel with
  | zero => intro s x h; exact absurd h (by simp [blockSearchAux])
  | succ n ih =>
    intro s x h
    cases s with
    | nil => exact absurd h (by simp [blockSearchAux])
    | cons c r =>
      rw [blockSearchAux] at h
      cases hb : blockHere (c :: r) with
      | some y => rw [hb] at h; cases h; exact blockHere_rest_lt _ _ hb
      | none =>
        rw [hb] at h
        have := ih r x h
        simp only [List.length_cons]
        omega

theorem blockHere_none_of_no_block (s : Str)
    (h : (("/**".data).isPrefixOf s && containsSub ("*/".data) (s.drop 4)) = false) :
    blockHere s = none := by
  unfold blockHere
  by_cases hp : ("/**".data).isPrefixOf s = true
  · rw [if_pos hp]
    have hc : containsSub ("*/".data) (s.drop 4) = false := by
      rcases Bool.and_eq_false_iff.mp h with h1 | h2
      · exact absurd hp (by simp [h1])
      · exact h2
    split
    · rfl
    next c r1 hd =>
      have hr1 : r1 = s.drop 4 := by
        have hdd : List.drop 1 (List.drop 3 s) = List.drop 4 s := List.drop_drop 1 3 s
        rw [hd] at hdd
        simpa using hdd
      rw [splitFirstSub_of_not_contains ("*/".data) r1 (by rw [hr1]; exact hc)]
  · rw [if_neg hp]

theorem blockSearchAux_none (fuel : Nat) :
    ∀ s : Str, hasCommentBlock s = false → blockSearchAux fuel s = none := by
  induction fuel with
  | zero => intro s _; rfl
  | succ n ih =>
    intro s h
    cases s with
    | nil => rfl
    | cons c r =>
      rw [hasCommentBlock, Bool.or_eq_false_iff] at h
      rw [blockSearchAux, blockHere_none_of_no_block _ h.1]
      exact ih r h.2

theorem blocksAux_nil (fuel : Nat) (s : Str)
    (h : hasCommentBlock s = false) : blocksAux fuel s = [] := by
  cases fuel with
  | zero => rfl
  | succ n => rw [blocksAux, blockSearchAux_none s.length s h]

theorem dropToComment_length_le : ∀ s : Str, (dropToComment s).length ≤ s.length := by
  intro s
  induction s with
  | nil => exact le_rfl
  | cons c r ih =>
    rw [dropToComment]
    split
    · exact le_rfl
    · exact Nat.le_succ_of_le ih

theorem blockSearchAux_fuel (fuel : Nat) :
    ∀ s : Str, s.length ≤ fuel → blockSearchAux fuel s = blockSearchAux s.length s := by
  induction fuel with
  | zero =>
    intro s h
    rw [List.length_eq_zero.mp (Nat.le_zero.mp h)]
    rfl
  | succ n ih =>
    intro s h
    cases s with
    | nil => rfl
    | cons c r =>
      simp only [List.length_cons]
      rw [blockSearchAux, blockSearchAux]
      cases hb : blockHere (c :: r) with
      | some y => rfl
      | none =>
        simp only [List.length_cons] at h
        exact ih r (Nat.succ_le_succ_iff.mp h)

theorem blockSearchAux_dropToComment (fuel : Nat) :
    ∀ s : Str, s.length ≤ fuel →
      blockSearchAux fuel s = blockSearchAux fuel (dropToComment s) := by
  induction fuel with
  | zero =>
    intro s h
    rw [List.length_eq_zero.mp (Nat.le_zero.mp h)]
    rfl
  | succ n ih =>
    intro s h
    cases s with
    | nil => rfl
    | cons c r =>
      by_cases hp : ("/**".data).isPrefixOf (c :: r) = true
      · rw [show dropToComment (c :: r) = c :: r from by rw [dropToComment, if_pos hp]]
      · have hd : dropToComment (c :: r) = dropToComment r := by
          rw [dropToComment, if_neg hp]
        have hb : blockHere (c :: r) = none := by
          unfold blockHere
          rw [if_neg hp]
        simp only [List.length_cons] at h
        have h1 : r.length ≤ n := Nat.succ_le_succ_iff.mp h
        have hdl : (dropToComment r).length ≤ n :=
          le_trans (dropToComment_length_le r) h1
        rw [hd, blockSearchAux, hb, ih r h1,
          blockSearchAux_fuel n _ (by exact hdl),
          blockSearchAux_fuel (n + 1) _ (Nat.le_succ_of_le hdl)]

theorem blocksAux_fuel (fuel : Nat) :
    ∀ (other : Nat) (s : Str), s.length ≤ fuel → s.length ≤ other →
      blocksAux fuel s = blocksAux other s := by
  induction fuel with
  | zero =>
    intro other s h _
    rw [List.length_eq_zero.mp (Nat.le_zero.mp h)]
    cases other with
    | zero => rfl
    | succ m => rfl
  | succ n ih =>
    intro other s h h2
    cases other with
    | zero =>
      rw [List.length_eq_zero.mp (Nat.le_zero.mp h2)]
      rfl
    | succ m =>
      rw [blocksAux, blocksAux]
      cases hb : blockSearchAux s.length s with
      | none => rfl
      | some bp =>
        have hlt : bp.2.length < s.length := blockSearchAux_rest_lt _ _ _ hb
        exact congrArg _ (ih m bp.2 (by omega) (by omega))

theorem blocksAux_dropToComment (fuel : Nat) (s : Str) (h : s.length ≤ fuel) :
    blocksAux fuel s = blocksAux fuel (dropToComment s) := by
  cases fuel with
  | zero =>
    rw [List.length_eq_zero.mp (Nat.le_zero.mp h)]
    rfl
  | succ n =>
    have hsearch : blockSearchAux s.length s =
        blockSearchAux (dropToComment s).length (dropToComment s) := by
      rw [blockSearchAux_dropToComment s.length s le_rfl]
      exact blockSearchAux_fuel s.length (dropToComment s) (dropToComment_length_le s)
    rw [blocksAux, blocksAux, hsearch]

theorem fileBlocks_dropToComment (s : Str) :
    fileBlocks s = fileBlocks (dropToComment s) := by
  unfold fileBlocks
  rw [blocksAux_dropToComment s.length s le_rfl]
  exact blocksAux_fuel s.length (dropToComment s).length (dropToComment s)
    (dropToComment_length_le s) le_rfl

theorem normNewlines_cons_ne (c : Char) (r : Str) (hc : ¬ c = '\r') :
    normNewlines (c :: r) = c :: normNewlines r := by
  simp [normNewlines, hc]

theorem normNewlines_no_cr (s : Str) : '\r' ∉ normNewlines s := by
  induction s using normNewlines.induct with
  | case1 => simp [normNewlines]
  | case2 r ih => simp [normNewlines, ih]
  | case3 r h ih => simp [normNewlines, ih]
  | case4 c r h1 h2 ih =>
    rw [normNewlines_cons_ne c r (fun hh => h2 hh)]
    simp only [List.mem_cons]
    rintro (hc | hm)
    · exact h2 hc.symm
    · exact ih hm

theorem normNewlines_id (s : Str) (h : '\r' ∉ s) : normNewlines s = s := by
  induction s using normNewlines.induct with
  | case1 => rfl
  | case2 r ih => simp at h
  | case3 r h1 ih => simp at h
  | case4 c r h1 h2 ih =>
    rw [normNewlines_cons_ne c r (fun hh => h2 hh),
      ih (fun hm => h (List.mem_cons_of_mem _ hm))]

theorem dropToComment_no_cr (s : Str) (h : '\r' ∉ s) : '\r' ∉ dropToComment s := by
  induction s with
  | nil => simp [dropToComment]
  | cons c r ih =>
    rw [dropToComment]
    split
    · exact h
    · exact ih (fun hm => h (List.mem_cons_of_mem _ hm))

theorem classifyBlock_isFunc_false (filename c code : Str)
    (hf : funcSearchM code = none) (e : ApiEntry)
    (he : classifyBlock filename c code = some e) : e.isFunc = false := by
  simp only [classifyBlock, hf] at he
  split at he
  · cases he; rfl
  · split at he
    · cases he; rfl
    · exact absurd he (by simp)

theorem filter_isFunc_filterMap (filename : Str) (bs : List (Str × Str)) :
    ((bs.filterMap (fun cb => classifyBlock filename cb.1 cb.2)).filter
        (fun e => e.isFunc)) =
      bs.filterMap (fun cb => (funcSearchM cb.2).map (funcEntryOf filename cb.1)) := by
  induction bs with
  | nil => rfl
  | cons cb tl ih =>
    cases hf : funcSearchM cb.2 with
    | some m =>
      have hc : classifyBlock filename cb.1 cb.2 = some (funcEntryOf filename cb.1 m) := by
        simp [classifyBlock, hf]
      simp only [List.filterMap_cons, hc, hf, Option.map_some']
      rw [List.filter_cons,
        if_pos (show (funcEntryOf filename cb.1 m).isFunc = true from rfl)]
      exact congrArg _ ih
    | none =>
      simp only [List.filterMap_cons, hf, Option.map_none']
      cases hc : classifyBlock filename cb.1 cb.2 with
      | none => exact ih
      | some e =>
        rw [List.filter_cons,
          if_neg (by simp [classifyBlock_isFunc_false filename cb.1 cb.2 hf e hc])]
        exact ih



/-! ## Claims -/

/-- C1: parsing the file `/** Does X.` / ` * @param a the value` /
` * @return true on success */` followed by `native bool DoX(int a);`
returns exactly one entry named `DoX` of kind `native`, return type `bool`,
one parameter `a : int` described `the value`, return tag
`true on success`, and comment `Does X.`. -/
theorem c1_roundtrip :
    parse_include_file ("test.inc".data) c1content.data =
      [ApiEntry.func ("DoX".data) ("native".data) ("test.inc".data) ("bool".data)
        ("Does X.".data)
        ⟨[⟨"a".data, "the value".data⟩], [], [], "true on success".data, [], [], []⟩
        [⟨"a".data, "int".data, none, "the value".data⟩]
        ("native bool DoX(int a);".data)] := by decide

/-- C2 counterexample: in `c2content` two declarations match the function
pattern, yet `parse_include_file` produces only one entry — the claim that
every matching declaration produces exactly one `Function` entry is false. -/
theorem c2_counterexample :
    (funcFinditer (normNewlines c2content.data)).length = 2 ∧
    (parse_include_file ("t.inc".data) c2content.data).length = 1 := by decide

/-- C2 (amended): the `Function` entries of a parse are exactly the first
`FUNC_REGEX` match of each comment-owned code chunk on which the search
succeeds, in chunk order — one entry per such chunk, none from later matches
of a chunk, and none from declarations outside every chunk — and each entry
carries as `full_declaration` that match's text, stripped, with newlines
replaced by single spaces. -/
theorem c2_amended_full_declaration (filename content : Str) :
    ((parse_include_file filename content).filter (fun e => e.isFunc) =
      (fileBlocks (normNewlines content)).filterMap
        (fun cb => (funcSearchM cb.2).map (funcEntryOf filename cb.1))) ∧
    ∀ cb ∈ fileBlocks (normNewlines content), ∀ m, funcSearchM cb.2 = some m →
      (funcEntryOf filename cb.1 m).isFunc = true ∧
      (funcEntryOf filename cb.1 m).fullDecl = replaceNl (pstrip m.whole) := by
  constructor
  · unfold parse_include_file
    exact filter_isFunc_filterMap filename (fileBlocks (normNewlines content))
  · exact fun _ _ _ _ => ⟨rfl, rfl⟩

theorem c2_amended_full_declaration_witness :
    ((parse_include_file ("t.inc".data) c2winContent.data).filter (fun e => e.isFunc) =
      (fileBlocks (normNewlines c2winContent.data)).filterMap
        (fun cb => (funcSearchM cb.2).map (funcEntryOf ("t.inc".data) cb.1))) ∧
    (("/** W */".data, "native bool DoY(int b);".data) ∈
        fileBlocks (normNewlines c2winContent.data)) ∧
    funcSearchM ("native bool DoY(int b);".data) = some c2winMatch ∧
    (funcEntryOf ("t.inc".data) ("/** W */".data) c2winMatch).isFunc = true ∧
    (funcEntryOf ("t.inc".data) ("/** W */".data) c2winMatch).fullDecl =
      replaceNl (pstrip c2winMatch.whole) :=
  ⟨(c2_amended_full_declaration ("t.inc".data) c2winContent.data).1,
   by decide, by decide,
   (c2_amended_full_declaration ("t.inc".data) c2winContent.data).2
     ("/** W */".data, "native bool DoY(int b);".data) (by decide)
     c2winMatch (by decide)⟩

/-- C3 counterexample: on the single-line methodmap input the produced entry
has `inherits = Bar` but empty `methods` and `properties` — the body match
requires a newline before `};` and never fires here, so no method `Go` and
no property `Size` appear, contrary to the claim. -/
theorem c3_counterexample :
    parse_include_file ("t.inc".data) c3content.data =
      [ApiEntry.methodmap ("Foo".data) ("t.inc".data) (some ("Bar".data)) ("Doc".data)
        initTags [] [] ("methodmap Foo < Bar".data)] := by decide

/-- C3 (amended): the single-line methodmap input yields exactly one
`Methodmap` entry with `inherits = "Bar"`, but with empty `methods` and
`properties` lists (the body extractor demands a newline before the closing
`};`, and the method/property patterns are line-anchored). -/
theorem c3_amended_single_line_methodmap :
    ∃ e, parse_include_file ("t.inc".data) c3content.data = [e] ∧
      e.inheritsOf = some (some ("Bar".data)) ∧
      e.methodsOf = some [] ∧ e.propsOf = some [] :=
  ⟨ApiEntry.methodmap ("Foo".data) ("t.inc".data) (some ("Bar".data)) ("Doc".data)
      initTags [] [] ("methodmap Foo < Bar".data),
   by decide, by decide, by decide, by decide⟩

/-- C4: for the piece `int a = 5` the Parameter List Parser produces
`default = some ""` — the trailing non-greedy `(?P<default>.*?)` of the
piece regex captures the empty string, never the default expression text
`5` that the claim (and the source's own comment, "capture type, name, and
optional default value") promises. -/
theorem c4_default_captured_empty :
    parse_params_string ("int a = 5".data) [] =
      [⟨"a".data, "int".data, some [], []⟩] := by decide

/-- C5 counterexample: a comment block whose normalized body's first line
begins with the tag `@param a the value` yields a `ParsedComment` whose
description is the whole tag line and whose tag set is empty — not an empty
description with parsed tags as claimed. -/
theorem c5_counterexample :
    parse_comment_block [("/** @param a the value */".data)] =
      ⟨"@param a the value".data, initTags⟩ := by decide

/-- C5 (amended): the split point of `re.split(r'\n\s*@', ...)` needs a
newline before the tag, so a tag opening the body's very first line is never
recognized: whenever the normalized body begins with `@`, the resulting
description is nonempty and still begins with that `@` (the first-line tag
is absorbed into the description; only later, newline-preceded tags are
parsed). -/
theorem c5_amended_first_line_tag (comment_lines : List Str)
    (h : (fullCommentOf comment_lines).head? = some '@') :
    (parse_comment_block comment_lines).description ≠ [] ∧
    (parse_comment_block comment_lines).description.head? = some '@' := by
  have key : (parse_comment_block comment_lines).description.head? = some '@' := by
    unfold parse_comment_block
    cases hfc : fullCommentOf comment_lines with
    | nil => rw [hfc] at h; simp at h
    | cons a rest =>
      rw [hfc] at h
      simp only [List.head?_cons, Option.some.injEq] at h
      subst h
      have hsp : isSpace '@' = false := by decide
      have hstep : splitAtTag ('@' :: rest) =
          match splitAtTag rest with
          | some p => some ('@' :: p.1, p.2)
          | none => none := by
        simp [splitAtTag]
      rw [hstep]
      cases hs : splitAtTag rest with
      | none => simpa using pstrip_head hsp rest
      | some p => simpa using pstrip_head hsp p.1
  refine ⟨?_, key⟩
  intro hnil
  rw [hnil] at key
  simp at key

theorem c5_amended_first_line_tag_witness :
    (fullCommentOf [("/** @param a the value */".data)]).head? = some '@' ∧
    (parse_comment_block [("/** @param a the value */".data)]).description ≠ [] ∧
    (parse_comment_block [("/** @param a the value */".data)]).description.head? =
      some '@' :=
  ⟨by decide, c5_amended_first_line_tag [("/** @param a the value */".data)] (by decide)⟩

/-- C6 counterexample: the file's methodmap body contains the indented
method line `\tpublic native void Go();`, yet the produced entry's methods
list is empty — `FUNC_REGEX` is `^`-anchored under MULTILINE, so indented
occurrences are not collected, contrary to the claim. -/
theorem c6_counterexample :
    containsSub ("\tpublic native void Go();".data) (normNewlines c6content.data) = true ∧
    parse_include_file ("t.inc".data) c6content.data =
      [ApiEntry.methodmap ("Foo".data) ("t.inc".data) (some ("Bar".data)) ("M".data)
        initTags [] [] ("methodmap Foo < Bar".data)] := by decide

/-- C6 (amended): the Methodmap Body Parser collects only matches of the
line-anchored function pattern: when `funcMatchHere` fails at the body's
start and after every newline of the body, the methods list is empty — in
particular a body whose method declarations are all indented contributes no
`MethodEntry`. -/
theorem c6_amended_line_anchored (body : Str)
    (h : ∀ t ∈ lineStartTails body, funcMatchHere t = none) :
    mapMethods (some body) = [] := by
  show (funcFinditer body).map mkMethodEntry = []
  have hnil : funcFinditer body = [] :=
    funcFinditerAux_nil body.length body true
      (fun t ht => h t (List.mem_cons_of_mem _ ht))
      (fun _ => h body (List.mem_cons_self _ _))
  rw [hnil]
  rfl

theorem c6_amended_line_anchored_witness :
    (∀ t ∈ lineStartTails ("\n\tpublic native void Go();".data),
        funcMatchHere t = none) ∧
    mapMethods (some ("\n\tpublic native void Go();".data)) = [] :=
  ⟨by decide, c6_amended_line_anchored ("\n\tpublic native void Go();".data) (by decide)⟩

/-- C7: scanning a directory with one file whose processing raises and one
file that parses yields exactly the successful file's entries: the failure
is caught at the per-file boundary and neither aborts the run nor changes
the other file's entries. -/
theorem c7_per_file_isolation (bad good err content : Str)
    (hbad : (".inc".data).isSuffixOf bad = true)
    (hgood : (".inc".data).isSuffixOf good = true) :
    main_run true [(bad, Except.error err), (good, Except.ok content)] =
      ⟨some (parse_include_file good content), 0⟩ := by
  simp only [main_run, if_true, List.foldl, hbad, hgood]
  cases h : parse_include_file good content with
  | nil => simp [h]
  | cons a l => simp [h]

theorem c7_per_file_isolation_witness :
    ((".inc".data).isSuffixOf ("a.inc".data) = true) ∧
    ((".inc".data).isSuffixOf ("b.inc".data) = true) ∧
    main_run true
        [(("a.inc".data), Except.error ("boom".data)),
         (("b.inc".data), Except.ok ("/** X */\nnative void F();".data))] =
      ⟨some (parse_include_file ("b.inc".data) ("/** X */\nnative void F();".data)), 0⟩ :=
  ⟨by decide, by decide,
   c7_per_file_isolation ("a.inc".data) ("b.inc".data) ("boom".data)
     ("/** X */\nnative void F();".data) (by decide) (by decide)⟩

/-- C8: with an existing input directory the run writes the output and exits
0 even with zero entries (an empty directory yields an empty array); with a
missing directory nothing is written (and the plain `return` still exits 0). -/
theorem c8_exit_behavior (files : List (Str × Except Str Str)) :
    main_run true [] = ⟨some [], 0⟩ ∧
    main_run false files = ⟨none, 0⟩ :=
  ⟨rfl, rfl⟩

/-- C9: every parameter of every method nested in a scanner-produced
methodmap entry has an empty description — nested methods are parsed with
the empty comment-parameter set `{"tags": {"param": []}}`. -/
theorem c9_nested_params_undocumented (filename content : Str) (e : ApiEntry)
    (he : e ∈ parse_include_file filename content)
    (ms : List MethodEntry) (hms : e.methodsOf = some ms)
    (m : MethodEntry) (hm : m ∈ ms) (p : Param) (hp : p ∈ m.params) :
    p.description = [] := by
  unfold parse_include_file at he
  obtain ⟨cb, -, hcb⟩ := List.mem_filterMap.mp he
  simp only [classifyBlock] at hcb
  split at hcb
  · cases hcb
    simp [ApiEntry.methodsOf, funcEntryOf] at hms
  · split at hcb
    · cases hcb
      simp only [ApiEntry.methodsOf, Option.some.injEq] at hms
      subst hms
      cases hbody : findMapBody cb.2 with
      | none => rw [hbody] at hm; simp [mapMethods] at hm
      | some body =>
        rw [hbody] at hm
        simp only [mapMethods, List.mem_map] at hm
        obtain ⟨fm, -, hfm⟩ := hm
        rw [← hfm] at hp
        simp only [mkMethodEntry] at hp
        exact parse_params_string_desc_nil _ _ hp
    · split at hcb
      · cases hcb
        simp [ApiEntry.methodsOf] at hms
      · exact absurd hcb (by simp)

theorem c9_nested_params_undocumented_witness :
    (c9winEntry ∈ parse_include_file ("t.inc".data) c9winContent.data) ∧
    c9winEntry.methodsOf = some [c9winMethod] ∧
    (⟨"a".data, "int".data, none, []⟩ : Param) ∈ c9winMethod.params ∧
    (⟨"a".data, "int".data, none, []⟩ : Param).description = [] :=
  ⟨by decide, by decide, by decide,
   c9_nested_params_undocumented ("t.inc".data) c9winContent.data c9winEntry (by decide)
     [c9winMethod] (by decide) c9winMethod (by decide)
     ⟨"a".data, "int".data, none, []⟩ (by decide)⟩

/-- C10: a file whose (line-ending-normalized) text contains no
`/** ... */` documentation comment block — no `/**` opener followed, with at
least one character in between, by a `*/` closer, so unclosed `/**` files
included — yields no entries at all, declarations matching the function,
methodmap or typedef patterns notwithstanding; and in general the text
preceding the first `/**` never contributes: parsing any file equals parsing
its suffix that starts at the first comment opener. -/
theorem c10_no_comment_no_entries (filename content : Str) :
    (hasCommentBlock (normNewlines content) = false →
      parse_include_file filename content = []) ∧
    parse_include_file filename content =
      parse_include_file filename (dropToComment (normNewlines content)) := by
  constructor
  · intro h
    unfold parse_include_file fileBlocks
    rw [blocksAux_nil _ _ h]
    rfl
  · unfold parse_include_file
    rw [fileBlocks_dropToComment (normNewlines content),
      normNewlines_id (dropToComment (normNewlines content))
        (dropToComment_no_cr _ (normNewlines_no_cr content))]

theorem c10_no_comment_no_entries_witness :
    hasCommentBlock (normNewlines c10winContent.data) = false ∧
    parse_include_file ("t.inc".data) c10winContent.data = [] ∧
    parse_include_file ("t.inc".data) c10winContent.data =
      parse_include_file ("t.inc".data) (dropToComment (normNewlines c10winContent.data)) :=
  ⟨by decide,
   (c10_no_comment_no_entries ("t.inc".data) c10winContent.data).1 (by decide),
   (c10_no_comment_no_entries ("t.inc".data) c10winContent.data).2⟩
